import Mathlib

set_option autoImplicit false

/-!
Shallow embedding of the flash documentation generator (Rust) and proofs
about its URL resolution, qualified-name computation, and streaming
markdown transform. Definitions are translated from the Rust sources
(src/builder/traits.rs, src/builder/function.rs, src/builder/markdown.rs,
src/config.rs); parts of the repository that are only reachable through
other crates or files (url.rs, lookahead.rs, shared.rs, namespace.rs,
builder.rs) are modelled from the specification and marked as such.
-/

namespace Flash

/-! ## String helpers (list-of-characters level) -/

/-- Split a list of characters at every occurrence of the separator.
Mirrors the behaviour of Rust str::split on a single-character pattern:
the pieces between separators are returned, including empty pieces. -/
def splitOnChar (sep : Char) : List Char → List (List Char)
  | [] => [[]]
  | c :: cs =>
    if c = sep then [] :: splitOnChar sep cs
    else
      match splitOnChar sep cs with
      | [] => [[c]]
      | w :: ws => (c :: w) :: ws

/-- Join pieces with a single separator character between them. -/
def joinWithChar (sep : Char) : List (List Char) → List Char
  | [] => []
  | [x] => x
  | x :: y :: rest => x ++ sep :: joinWithChar sep (y :: rest)

/-- Join pieces with a single space between them. -/
def joinWithSpace : List (List Char) → List Char :=
  joinWithChar ' '

/-- Accumulator-based splitting on whitespace, skipping empty pieces.
Mirrors Rust str::split_whitespace. -/
def wordsAux : List Char → List Char → List (List Char)
  | [], acc => if acc.isEmpty then [] else [acc.reverse]
  | c :: cs, acc =>
    if c.isWhitespace then
      if acc.isEmpty then wordsAux cs [] else acc.reverse :: wordsAux cs []
    else wordsAux cs (c :: acc)

/-- The whitespace-separated words of a character list. -/
def wordsL (l : List Char) : List (List Char) :=
  wordsAux l []

/-- Does the first string start with the second? Mirrors Rust str::starts_with. -/
def startsWithL (s pre : String) : Bool :=
  pre.data.isPrefixOf s.data

/-- Does the first string end with the second? Mirrors Rust str::ends_with. -/
def endsWithL (s suffix : String) : Bool :=
  suffix.data.isSuffixOf s.data

/-- Drop the first n characters of a string. -/
def dropStr (s : String) (n : Nat) : String :=
  ⟨s.data.drop n⟩

/-- Take the first n characters of a string. -/
def takeStr (s : String) (n : Nat) : String :=
  ⟨s.data.take n⟩

/-- Remove leading whitespace. Mirrors Rust str::trim_start. -/
def trimStartStr (s : String) : String :=
  ⟨s.data.dropWhile Char.isWhitespace⟩

/-- Is the string empty? -/
def isEmptyStr (s : String) : Bool :=
  s.data.isEmpty

/-- Index of the first occurrence of a pattern as a contiguous sublist. -/
def idxOfSubList (pat : List Char) : List Char → Option Nat
  | [] => if pat.isEmpty then some 0 else none
  | c :: rest =>
    if pat.isPrefixOf (c :: rest) then some 0
    else (idxOfSubList pat rest).map (· + 1)

/-- Index of the first occurrence of a pattern inside a string.
Mirrors Rust str::find on a string pattern (character positions). -/
def findSub (s pat : String) : Option Nat :=
  idxOfSubList pat.data s.data

theorem data_append (a b : String) : (a ++ b).data = a.data ++ b.data := by
  cases a; cases b; rfl

/-! ## UrlPath

Modelled from the spec: url.rs is not part of the provided sources. The
spec describes UrlPath as an ordered sequence of path segments holding no
raw slash, with operations resolve-to-absolute against a configured base,
strip extension, prefix test and strip, and append suffix to the last
segment. -/

/-- Modelled from the spec: an ordered sequence of path segments. -/
structure UrlPath where
  parts : List String
deriving DecidableEq

/-- Modelled from the spec: build a UrlPath from given segments. -/
def UrlPath.new_with_path (l : List String) : UrlPath :=
  ⟨l⟩

/-- Modelled from the spec: parse a string into segments, splitting on
slashes and discarding empty segments. The source uses this as a
fallible operation; the model always succeeds. -/
def UrlPath.parse (s : String) : Option UrlPath :=
  some ⟨((splitOnChar '/' s.data).filter (fun l => !l.isEmpty)).map fun l => ⟨l⟩⟩

/-- Modelled from the spec: concatenation of two segment sequences. -/
def UrlPath.join (a b : UrlPath) : UrlPath :=
  ⟨a.parts ++ b.parts⟩

/-- Modelled from the spec: render segments joined by slashes. -/
def UrlPath.to_unencoded_string (p : UrlPath) : String :=
  ⟨joinWithChar '/' (p.parts.map String.data)⟩

/-- Modelled from the spec: append a suffix to the final segment. -/
def UrlPath.append_to_last (p : UrlPath) (s : String) : UrlPath :=
  match p.parts.getLast? with
  | none => p
  | some last => ⟨p.parts.dropLast ++ [last ++ s]⟩

/-- Modelled from the spec: strip the given extension from the final
segment when it carries it. -/
def UrlPath.remove_extension (p : UrlPath) (ext : String) : UrlPath :=
  match p.parts.getLast? with
  | none => p
  | some last =>
    if endsWithL last ext then
      ⟨p.parts.dropLast ++ [takeStr last (last.data.length - ext.data.length)]⟩
    else p

/-- Configuration slice relevant to URL resolution (config.rs holds many
more fields such as templates and sources; only the optional output base
URL participates in the claims proved here). -/
structure Config where
  output_url : Option UrlPath
deriving DecidableEq

/-- Modelled from the spec: resolve a relative URL against the configured
site base. -/
def UrlPath.to_absolute (p : UrlPath) (config : Config) : UrlPath :=
  ⟨((config.output_url.map UrlPath.parts).getD []) ++ p.parts⟩

/-! ## Entities (clang AST view) and the declaration resolver
(src/builder/traits.rs) -/

/-- Syntactic kinds of analyzer declarations used by the resolver. The
five translation-unit and unexposed kinds act as scope terminators in
ancestorage (traits.rs lines 131 to 136). -/
inductive EntityKind where
  | TranslationUnit
  | UnexposedDecl
  | UnexposedAttr
  | UnexposedExpr
  | UnexposedStmt
  | Namespace
  | ClassDecl
  | StructDecl
  | FunctionDecl
  | Method
  | EnumDecl
  | TypedefDecl
deriving DecidableEq

/-- A borrowed view of one analyzer declaration: syntactic kind, display
name, definition-file path (as path components) and semantic parent link.
The parent link is encoded structurally: a root entity has no semantic
parent. -/
inductive Entity where
  | root (kind : EntityKind) (name : Option String) (defFile : Option (List String))
  | child (kind : EntityKind) (name : Option String) (defFile : Option (List String))
      (parent : Entity)
deriving DecidableEq

/-- The syntactic kind of an entity (clang get_kind). -/
def Entity.get_kind : Entity → EntityKind
  | .root k _ _ => k
  | .child k _ _ _ => k

/-- The display name of an entity (clang get_name). -/
def Entity.get_name : Entity → Option String
  | .root _ n _ => n
  | .child _ n _ _ => n

/-- The semantic parent of an entity (clang get_semantic_parent). -/
def Entity.get_semantic_parent : Entity → Option Entity
  | .root _ _ _ => none
  | .child _ _ _ p => p

/-- The path of the file holding the definition of this entity
(traits.rs definition_file, lines 56 to 63), as path components. -/
def Entity.definition_file : Entity → Option (List String)
  | .root _ _ f => f
  | .child _ _ f _ => f

/-- The chain of semantic parents of an entity, outermost first and the
entity itself last (traits.rs ancestorage, lines 125 to 143). The walk
into the parent stops when the parent name ends in ".cpp" or when the
parent kind is a translation unit or one of the unexposed kinds. -/
def Entity.ancestorage : Entity → List Entity
  | .root k n f => [Entity.root k n f]
  | .child k n f parent =>
    (if parent.get_name.any (fun p => endsWithL p ".cpp") then []
     else
       match parent.get_kind with
       | .TranslationUnit | .UnexposedDecl | .UnexposedAttr
       | .UnexposedExpr | .UnexposedStmt => []
       | _ => parent.ancestorage)
      ++ [Entity.child k n f parent]

/-- The fully qualified name of an entity: the names along its
ancestorage, anonymous scopes contributing the placeholder "_anon"
(traits.rs full_name, lines 118 to 123). -/
def Entity.full_name (e : Entity) : List String :=
  e.ancestorage.map fun a => a.get_name.getD "_anon"

/-! ### Documentation categories

Modelled from the spec: namespace.rs (CppItemKind) is not part of the
provided sources. The spec describes a fixed mapping from syntactic kind
to a documentation category (function, class, struct, enum, namespace);
unrecognized kinds yield no category, and each category supplies a URL
prefix joined with the qualified name. -/

/-- Modelled from the spec: the documentation categories. -/
inductive CppItemKind where
  | Function
  | Class
  | Struct
  | Enum
  | Namespace
deriving DecidableEq

/-- Modelled from the spec: the fixed mapping from syntactic kind to a
documentation category; unrecognized kinds yield none. -/
def CppItemKind.fromEntity (e : Entity) : Option CppItemKind :=
  match e.get_kind with
  | .FunctionDecl | .Method => some .Function
  | .ClassDecl => some .Class
  | .StructDecl => some .Struct
  | .EnumDecl => some .Enum
  | .Namespace => some .Namespace
  | _ => none

/-- Modelled from the spec: the URL prefix of each category. -/
def CppItemKind.docs_category : CppItemKind → UrlPath
  | .Function => ⟨["functions"]⟩
  | .Class => ⟨["classes"]⟩
  | .Struct => ⟨["structs"]⟩
  | .Enum => ⟨["enums"]⟩
  | .Namespace => ⟨["namespaces"]⟩

/-- The relative docs URL of an entity: the category prefix joined with
the qualified name, or none when the kind has no documentation category
(traits.rs rel_docs_url, lines 73 to 79). -/
def Entity.rel_docs_url (e : Entity) : Option UrlPath :=
  (CppItemKind.fromEntity e).map fun k =>
    k.docs_category.join (UrlPath.new_with_path e.full_name)

/-- The absolute docs URL of an entity (traits.rs abs_docs_url, lines 81
to 93): when the outermost qualified-name component is "std" the entity
is redirected to cppreference, building the URL from the definition-file
final path component and the unqualified name; otherwise the relative
docs URL is resolved against the configured site base. -/
def Entity.abs_docs_url (e : Entity) (config : Config) : Option UrlPath :=
  if e.full_name.head? = some "std" then
    match e.definition_file with
    | none => none
    | some p =>
      match p.getLast? with
      | none => none
      | some fn =>
        match e.get_name with
        | none => none
        | some n =>
          UrlPath.parse ("en.cppreference.com/w/cpp/" ++ fn ++ "/" ++ n)
  else
    (e.rel_docs_url).map fun u => u.to_absolute config

/-! ## Function entries (src/builder/function.rs) -/

/-- A function documentable unit: the underlying entity and an optional
overload index (function.rs lines 12 to 15). -/
structure Function where
  entity : Entity
  overload_index : Option Nat
deriving DecidableEq

/-- Construct a fresh function entry with no overload index
(function.rs new, lines 18 to 20). -/
def Function.new (e : Entity) : Function :=
  ⟨e, none⟩

/-- Record an overload index on the entry (function.rs lines 22 to 24). -/
def Function.add_overload_index (f : Function) (i : Nat) : Function :=
  { f with overload_index := some i }

/-- The URL of a function entry (function.rs url, lines 34 to 39): the
relative docs URL with the decimal overload index, when any, appended to
the final segment. The source unwraps the relative URL with expect and
panics when it is absent; the model returns none in that case. -/
def Function.url (f : Function) : Option UrlPath :=
  (f.entity.rel_docs_url).map fun u =>
    u.append_to_last ((f.overload_index.map toString).getD "")

/-- Modelled from the spec: the build orchestrator (builder.rs, not part
of the provided sources) assigns 0-based overload indices in enumeration
order to function entries sharing a qualified name; per the spec, index 0
keeps the bare URL, so add_overload_index is applied only to entries at
positions at least 1. -/
def assignOverloadIndicesFrom (i : Nat) : List Function → List Function
  | [] => []
  | f :: fs =>
    (if i = 0 then f else f.add_overload_index i) :: assignOverloadIndicesFrom (i + 1) fs

/-- Modelled from the spec: assign overload indices starting at 0. -/
def assignOverloadIndices (fs : List Function) : List Function :=
  assignOverloadIndicesFrom 0 fs

/-! ## Markdown engine (src/builder/markdown.rs) -/

/-- Document style from front-matter (markdown.rs lines 10 to 15). -/
inductive Style where
  | Default
  | QnA
deriving DecidableEq

/-- Front-matter metadata (markdown.rs lines 28 to 36). -/
structure Metadata where
  title : Option String := none
  description : Option String := none
  icon : Option String := none
  order : Option Nat := none
  style : Style := Style.Default
deriving DecidableEq

/-- Metadata carrying only a title (markdown.rs new_with_title, lines 38
to 45). -/
def Metadata.new_with_title (title : String) : Metadata :=
  { title := some title }

/-- Front-matter pre-pass (markdown.rs parse_markdown_metadata, lines 47
to 66): when the trimmed document starts with "---", the delimiter is
stripped; when a closing "---" exists, the text between the delimiters is
handed to the YAML parser and the rest is the body, otherwise the
remaining text is the body with no metadata. The YAML parser (external
serde_yaml; the source panics via expect on malformed input) is passed as
a function argument. -/
def parse_markdown_metadata (yaml : String → Option Metadata) (doc : String) :
    String × Option Metadata :=
  if !(startsWithL (trimStartStr doc) "---") then (doc, none)
  else
    let doc2 := dropStr (trimStartStr doc) 3
    match findSub doc2 "---" with
    | none => (doc2, none)
    | some metadata_end =>
      let metadata_str := takeStr doc2 metadata_end
      (dropStr doc2 (metadata_end + 3), yaml metadata_str)

/-- Link types of pulldown-cmark events; the transform only distinguishes
inline links from the rest. -/
inductive LinkType where
  | Inline
  | Other
deriving DecidableEq

/-- Markdown structural tags (the pulldown-cmark tags the transform
inspects, with a catch-all for the rest). -/
inductive Tag where
  | Heading (lvl : Nat) (frag : Option String) (classes : List String)
  | CodeBlock (info : String)
  | Link (ty : LinkType) (dest : String) (title : String)
  | Image (ty : LinkType) (dest : String) (title : String)
  | BlockQuote
  | Paragraph
  | OtherTag (id : Nat)
deriving DecidableEq

/-- Markdown stream events (pulldown-cmark events: block or inline start
and end, text runs, with a catch-all for the rest). -/
inductive Event where
  | Start (t : Tag)
  | End (t : Tag)
  | Text (s : String)
  | OtherEvent (id : Nat)
deriving DecidableEq

/-- Modelled from the spec: the emoji shorthand table used by fmt_emoji
(shared.rs, not part of the provided sources). -/
def emojiTable : List (String × String) :=
  [(":smile:", "😄"), (":rocket:", "🚀")]

/-- Replace every occurrence of a pattern, scanning left to right with a
fuel bound equal to the text length. -/
def replaceSub (pat rep : List Char) : Nat → List Char → List Char
  | _, [] => []
  | 0, l => l
  | fuel + 1, c :: cs =>
    if !pat.isEmpty && pat.isPrefixOf (c :: cs) then
      rep ++ replaceSub pat rep fuel ((c :: cs).drop pat.length)
    else c :: replaceSub pat rep fuel cs

/-- Modelled from the spec: textual substitution of emoji shorthand
tokens (shared.rs fmt_emoji, not part of the provided sources). -/
def fmt_emoji (s : String) : String :=
  ⟨emojiTable.foldl (fun cs kv => replaceSub kv.1.data kv.2.data cs.length cs) s.data⟩

/-- Is a character kept by the heading anchor filter (markdown.rs line
184)? -/
def keepChar (c : Char) : Bool :=
  c.isAlphanum || c.isWhitespace

/-- One text run processed for the heading anchor: punctuation removed,
then lowercased (markdown.rs lines 180 to 186). -/
def procRunL (l : List Char) : List Char :=
  (l.filter keepChar).map Char.toLower

/-- String wrapper of procRunL. -/
def procRun (t : String) : String :=
  ⟨procRunL t.data⟩

/-- Append one processed text run to the anchor buffer, separating runs
with a single space (markdown.rs lines 175 to 187). -/
def bufAppendRun (buf : String) (t : String) : String :=
  (if isEmptyStr buf then buf else buf ++ " ") ++ procRun t

/-- The anchor buffer gathered from the lookahead window: text runs are
appended until the heading end event or the window capacity is exhausted
(markdown.rs lines 173 to 192). -/
def headingSlugBuf : Nat → List Event → String → String
  | 0, _, buf => buf
  | _ + 1, [], buf => buf
  | fuel + 1, e :: rest, buf =>
    match e with
    | Event.Text t => headingSlugBuf fuel rest (bufAppendRun buf t)
    | Event.End (Tag.Heading _ _ _) => buf
    | _ => headingSlugBuf fuel rest buf

/-- The text runs visible in the lookahead window before the heading end
event. -/
def gatherRuns : Nat → List Event → List String
  | 0, _ => []
  | _ + 1, [] => []
  | fuel + 1, e :: rest =>
    match e with
    | Event.Text t => t :: gatherRuns fuel rest
    | Event.End (Tag.Heading _ _ _) => []
    | _ => gatherRuns fuel rest

/-- Collapse the whitespace of the anchor buffer into single hyphens
(markdown.rs line 194). -/
def slugFinish (buf : String) : String :=
  ⟨joinWithChar '-' (wordsL buf.data)⟩

/-- The synthesized heading anchor: the buffer gathered from the
lookahead window, hyphenated (markdown.rs lines 172 to 196). -/
def headingSlug (size : Nat) (events : List Event) : String :=
  slugFinish (headingSlugBuf size events "")

/-- The anchor the spec describes, stated on the gathered text runs: the
runs concatenated with single spaces, lowercased with punctuation
removed, and whitespace collapsed to single hyphens. -/
def specSlugOfRuns (runs : List String) : String :=
  ⟨joinWithChar '-' (wordsL (procRunL (joinWithSpace (runs.map String.data))))⟩

/-- Does the front-matter style ask for question-and-answer rendering
(markdown.rs lines 198 and 214)? -/
def isQnA : Option Metadata → Bool
  | some m => m.style = Style.QnA
  | none => false

/-- Quote-block insertion stage (markdown.rs InsertP, lines 68 to 73). -/
inductive InsertP where
  | Dont
  | Start
  | ToEnd
deriving DecidableEq

/-- State of the streaming markdown transform (markdown.rs MDStream,
lines 75 to 82): the remaining event stream behind the lookahead window,
the window capacity, the optional link rewrite function, the relevant
configuration, the front-matter metadata, the quote-block insertion stage
and the code-block flag. -/
structure MDState where
  events : List Event
  size : Nat
  urlFixer : Option (UrlPath → Option UrlPath)
  config : Config
  metadata : Option Metadata
  insertP : InsertP
  insideCode : Bool

/-- Does the peeked event close the synthetic answer quote block: the
next level-2 heading start or the end of the stream (markdown.rs lines
113 to 118)? -/
def closesAnswer : Option Event → Bool
  | some (Event.Start (Tag.Heading lvl _ _)) => lvl = 2
  | none => true
  | _ => false

/-- The first half of the link destination rewrite (markdown.rs lines
136 to 151): an inline destination starting with "/" may pass through the
caller-supplied rewrite function. -/
def rewriteDest (s : MDState) (ty : LinkType) (dest : String) : String :=
  if ty = LinkType.Inline ∧ startsWithL dest "/" = true then
    match s.urlFixer with
    | some url_fixer =>
      let url := UrlPath.new_with_path
        ((splitOnChar '/' dest.data).map fun l => (⟨l⟩ : String))
      match url_fixer url with
      | some u => u.to_unencoded_string
      | none => dest
    | none => dest
  else dest

/-- The full link destination fix (markdown.rs lines 136 to 160): after
the optional rewrite, a destination whose original form starts with "/"
is resolved to an absolute URL against the site base. -/
def fixDest (s : MDState) (ty : LinkType) (dest : String) : String :=
  let new_dest := rewriteDest s ty dest
  if startsWithL dest "/" = true then
    match UrlPath.parse new_dest with
    | some d => (d.to_absolute s.config).to_unencoded_string
    | none => new_dest
  else new_dest

/-- One step of the streaming markdown transform (markdown.rs next, lines
109 to 230). A pending quote-block start is emitted first; a pending
quote-block end is emitted when the peeked event is a level-2 heading
start or the stream is over; otherwise one event is pulled and rewritten:
text gets emoji substitution outside code blocks, link and image starts
get their destinations fixed, headings of level below 4 without an
explicit fragment get a synthesized anchor from the lookahead window and
question-and-answer headings below level 3 get a styling class, code
block delimiters toggle the code flag, and a level-2 heading end under
question-and-answer style schedules the quote-block start. -/
def mdNext (s : MDState) : Option (Event × MDState) :=
  if s.insertP = InsertP.Start then
    some (Event.Start Tag.BlockQuote, { s with insertP := InsertP.ToEnd })
  else if s.insertP = InsertP.ToEnd ∧ closesAnswer s.events.head? = true then
    some (Event.End Tag.BlockQuote, { s with insertP := InsertP.Dont })
  else
    match s.events with
    | [] => none
    | event :: rest =>
      let s2 := { s with events := rest }
      match event with
      | Event.Text t =>
        if s2.insideCode then some (Event.Text t, s2)
        else some (Event.Text (fmt_emoji t), s2)
      | Event.Start tag =>
        match tag with
        | Tag.Link ty dest title =>
          some (Event.Start (Tag.Link ty (fixDest s2 ty dest) title), s2)
        | Tag.Image ty dest title =>
          some (Event.Start (Tag.Image ty (fixDest s2 ty dest) title), s2)
        | Tag.Heading lvl frag classes =>
          let frag2 :=
            if frag = none ∧ lvl < 4 then some (headingSlug s2.size rest) else frag
          let classes2 :=
            if isQnA s2.metadata = true ∧ lvl < 3 then classes ++ ["qna-question"]
            else classes
          some (Event.Start (Tag.Heading lvl frag2 classes2), s2)
        | Tag.CodeBlock info =>
          some (Event.Start (Tag.CodeBlock info), { s2 with insideCode := true })
        | other => some (Event.Start other, s2)
      | Event.End tag =>
        match tag with
        | Tag.Heading lvl frag classes =>
          if isQnA s2.metadata = true ∧ lvl = 2 then
            some (Event.End (Tag.Heading lvl frag classes),
              { s2 with insertP := InsertP.Start })
          else some (Event.End (Tag.Heading lvl frag classes), s2)
        | Tag.CodeBlock info =>
          some (Event.End (Tag.CodeBlock info), { s2 with insideCode := false })
        | other => some (Event.End other, s2)
      | other => some (other, s2)

/-- Run the transform for at most the given number of output events. -/
def mdRun : Nat → MDState → List Event
  | 0, _ => []
  | n + 1, s =>
    match mdNext s with
    | none => []
    | some (e, s2) => e :: mdRun n s2

/-- The link rewrite function tutorials install: strip a ".md" extension
(markdown.rs output_tutorial, line 321). -/
def tutorialUrlFixer : UrlPath → Option UrlPath :=
  fun url => some (url.remove_extension ".md")

/-! ## Title extraction (markdown.rs extract_metadata_from_md, lines 264
to 306) -/

/-- Concatenate the text runs following a heading start until the heading
end event or the end of the stream (the while loop of markdown.rs lines
283 to 293). -/
def collectTitle : List Event → String
  | [] => ""
  | e :: rest =>
    match e with
    | Event.End (Tag.Heading _ _ _) => ""
    | Event.Text t => t ++ collectTitle rest
    | _ => collectTitle rest

/-- The event-level core of title extraction (markdown.rs lines 268 to
305): front-matter metadata with a title is returned unchanged; otherwise
the first event must be a heading start, whose collected text becomes the
title, the caller default filling in when the collected text is empty;
when the first event is not a heading start, none is returned. -/
def extract_metadata_core (metadata : Option Metadata) (events : List Event)
    (default_title : Option String) : Option Metadata :=
  if metadata.isSome ∧ (metadata.bind Metadata.title).isSome then metadata
  else
    match events with
    | [] => none
    | first :: rest =>
      match first with
      | Event.Start (Tag.Heading _ _ _) =>
        let res := collectTitle rest
        match metadata with
        | some m =>
          some { m with title := (if !isEmptyStr res then some res else none).or default_title }
        | none =>
          if isEmptyStr res then default_title.map Metadata.new_with_title
          else some (Metadata.new_with_title res)
      | _ => none

/-- Title extraction over a raw document (markdown.rs
extract_metadata_from_md): the front-matter pre-pass runs first, then the
body is parsed into events (the external pulldown-cmark parser is passed
as a function argument) and the core examines them. -/
def extract_metadata_from_md (yaml : String → Option Metadata)
    (mdParse : String → List Event) (text : String)
    (default_title : Option String) : Option Metadata :=
  let pr := parse_markdown_metadata yaml text
  extract_metadata_core pr.2 (mdParse pr.1) default_title

/-! ## Theorems -/

/-- Follows the spec words: a parent terminates the scope walk when it is
a translation unit or an unexposed synthetic kind, or when its name ends
in the C++ source-file extension ".cpp". -/
def specScopeTerminator (parent : Entity) : Bool :=
  (match parent.get_kind with
   | .TranslationUnit | .UnexposedDecl | .UnexposedAttr
   | .UnexposedExpr | .UnexposedStmt => true
   | _ => false)
  || parent.get_name.any (fun p => endsWithL p ".cpp")

/-- Follows the spec words: the scope chain collected innermost first by
walking semantic-parent links until a terminator. -/
def specChainIn : Entity → List Entity
  | .root k n f => [Entity.root k n f]
  | .child k n f p =>
    Entity.child k n f p :: (if specScopeTerminator p then [] else specChainIn p)

/-- Follows the spec words: the qualified name is the ancestor chain from
the outermost non-synthetic scope through the declaration itself,
outermost first, anonymous scopes contributing a placeholder. -/
def specQualifiedName (e : Entity) : List String :=
  (specChainIn e).reverse.map fun a => a.get_name.getD "_anon"

theorem ancestorage_eq_chain (e : Entity) :
    e.ancestorage = (specChainIn e).reverse := by
  induction e with
  | root k n f => simp [Entity.ancestorage, specChainIn]
  | child k n f p ih =>
    simp only [Entity.ancestorage, specChainIn, List.reverse_cons]
    by_cases hname : p.get_name.any (fun q => endsWithL q ".cpp")
    · have hterm : specScopeTerminator p = true := by
        simp [specScopeTerminator, hname]
      simp [hname, hterm]
    · simp only [hname, if_false]
      cases hk : p.get_kind <;>
        simp [specScopeTerminator, hk, hname, ih]

theorem ancestorage_concat (e : Entity) :
    ∃ pre, e.ancestorage = pre ++ [e] := by
  cases e with
  | root k n f => exact ⟨[], rfl⟩
  | child k n f p => exact ⟨_, rfl⟩

/-- C3: for every declaration, the qualified name is the ancestor chain
from the outermost non-synthetic scope to the declaration itself, with
the declaration's own name last; the semantic-parent walk stops at
translation-unit and unexposed synthetic parents and at any parent whose
name ends in the C++ source-file extension ".cpp", and each anonymous
scope contributes the placeholder name. -/
theorem claim_C3_qualified_name (e : Entity) :
    e.full_name = specQualifiedName e
      ∧ e.full_name.getLast? = some (e.get_name.getD "_anon")
      ∧ e.ancestorage = (specChainIn e).reverse := by
  refine ⟨?_, ?_, ancestorage_eq_chain e⟩
  · simp [Entity.full_name, specQualifiedName, ancestorage_eq_chain]
  · obtain ⟨pre, hp⟩ := ancestorage_concat e
    simp [Entity.full_name, hp]

theorem assignFrom_getElem (fs : List Function) :
    ∀ (k j : Nat), (assignOverloadIndicesFrom k fs)[j]? =
      (fs[j]?).map fun f => if k + j = 0 then f else f.add_overload_index (k + j) := by
  induction fs with
  | nil => intro k j; simp [assignOverloadIndicesFrom]
  | cons f fs ih =>
    intro k j
    cases j with
    | zero => simp [assignOverloadIndicesFrom]
    | succ j =>
      simp only [assignOverloadIndicesFrom, List.getElem?_cons_succ, ih (k + 1) j]
      have : k + 1 + j = k + (j + 1) := by omega
      rw [this]

theorem append_to_last_nil_str (p : UrlPath) (h : p.parts ≠ []) :
    p.append_to_last "" = p := by
  rcases List.eq_nil_or_concat' p.parts with hnil | ⟨init, last, hl⟩
  · exact absurd hnil h
  · have hlast : last ++ "" = last := by
      apply String.ext
      simp [data_append]
    cases p
    simp only at hl
    subst hl
    simp [UrlPath.append_to_last, hlast]

/-- C1: for function entries sharing a qualified name, enumerated in
order, the entry at overload position 0 keeps the bare URL (the category
prefix joined with the qualified name, nothing appended to the final
segment), and every entry at position i of at least 1 gets the decimal
rendering of i appended to the final segment of that same URL. -/
theorem claim_C1_overload_url_rule (e : Entity) (k : CppItemKind) (u : UrlPath)
    (fs : List Function) (i : Nat) (f0 : Function)
    (hk : CppItemKind.fromEntity e = some k)
    (hu : e.rel_docs_url = some u)
    (hfs : ∀ f ∈ fs, f = Function.new e)
    (hi : fs[i]? = some f0) :
    u = k.docs_category.join (UrlPath.new_with_path e.full_name)
      ∧ ∃ fi, (assignOverloadIndices fs)[i]? = some fi
          ∧ fi.url = some (if i = 0 then u else u.append_to_last (toString i)) := by
  have hueq : u = k.docs_category.join (UrlPath.new_with_path e.full_name) := by
    rw [Entity.rel_docs_url, hk] at hu
    simpa using hu.symm
  have hne : u.parts ≠ [] := by
    rw [hueq]
    cases k <;> simp [CppItemKind.docs_category, UrlPath.join]
  have hf0 : f0 = Function.new e := by
    rcases List.getElem?_eq_some.mp hi with ⟨hlt, hget⟩
    exact hfs f0 (hget ▸ List.getElem_mem hlt)
  refine ⟨hueq, ?_⟩
  rw [assignOverloadIndices, assignFrom_getElem fs 0 i, hi]
  simp only [Nat.zero_add, Option.map_some']
  by_cases h0 : i = 0
  · subst h0
    refine ⟨f0, by simp, ?_⟩
    rw [hf0]
    simp [Function.url, Function.new, hu, append_to_last_nil_str u hne]
  · refine ⟨f0.add_overload_index i, by simp [h0], ?_⟩
    rw [hf0]
    simp [Function.url, Function.new, Function.add_overload_index, hu, h0]

/-- A sample function declaration: function foo inside namespace ns. -/
def sampleFnEntity : Entity :=
  Entity.child EntityKind.FunctionDecl (some "foo") none
    (Entity.root EntityKind.Namespace (some "ns") none)

/-- Witness for C1: three overloads of ns::foo; the entry at position 1
gets "1" appended to the final URL segment. -/
theorem claim_C1_witness :
    (⟨["functions", "ns", "foo"]⟩ : UrlPath)
        = CppItemKind.Function.docs_category.join
            (UrlPath.new_with_path sampleFnEntity.full_name)
      ∧ ∃ fi,
          (assignOverloadIndices
              [Function.new sampleFnEntity, Function.new sampleFnEntity,
                Function.new sampleFnEntity])[1]? = some fi
            ∧ fi.url = some (if 1 = 0 then (⟨["functions", "ns", "foo"]⟩ : UrlPath)
                else UrlPath.append_to_last ⟨["functions", "ns", "foo"]⟩ (toString 1)) :=
  claim_C1_overload_url_rule sampleFnEntity CppItemKind.Function
    ⟨["functions", "ns", "foo"]⟩
    [Function.new sampleFnEntity, Function.new sampleFnEntity, Function.new sampleFnEntity]
    1 (Function.new sampleFnEntity) rfl rfl (by decide) rfl

/-- C9: for every function entry whose syntactic kind has no
documentation category, the relative docs URL is absent and the public
url operation yields no URL (the source panics via expect there, modelled
as none); when the kind maps to a category the url operation always
yields a URL. -/
theorem claim_C9_url_requires_category (f : Function) :
    (CppItemKind.fromEntity f.entity = none →
        f.entity.rel_docs_url = none ∧ f.url = none)
      ∧ (∀ k, CppItemKind.fromEntity f.entity = some k → ∃ u, f.url = some u) := by
  constructor
  · intro h
    have hrel : f.entity.rel_docs_url = none := by simp [Entity.rel_docs_url, h]
    exact ⟨hrel, by simp [Function.url, hrel]⟩
  · intro k hk
    simp [Function.url, Entity.rel_docs_url, hk]

/-- Witness for C9: a typedef declaration has no documentation category
and its function entry yields no URL. -/
theorem claim_C9_witness :
    CppItemKind.fromEntity
        (Function.new (Entity.root EntityKind.TypedefDecl (some "t") none)).entity = none
      ∧ Function.url (Function.new (Entity.root EntityKind.TypedefDecl (some "t") none))
          = none :=
  ⟨rfl, ((claim_C9_url_requires_category
      (Function.new (Entity.root EntityKind.TypedefDecl (some "t") none))).1 rfl).2⟩

theorem splitOnChar_sep_split (sep : Char) (ys : List Char) :
    ∀ xs : List Char, sep ∉ xs →
      splitOnChar sep (xs ++ sep :: ys) = xs :: splitOnChar sep ys := by
  intro xs
  induction xs with
  | nil => intro _; simp [splitOnChar]
  | cons c cs ih =>
    intro hnot
    have hc : ¬(c = sep) := fun h => hnot (h ▸ List.mem_cons_self c cs)
    have hcs : sep ∉ cs := fun h => hnot (List.mem_cons_of_mem c h)
    simp only [List.cons_append, splitOnChar, if_neg hc, List.append_eq, ih hcs]

theorem cppref_parse_head (fn n : String) :
    ∃ rest, UrlPath.parse ("en.cppreference.com/w/cpp/" ++ fn ++ "/" ++ n)
      = some ⟨"en.cppreference.com" :: rest⟩ := by
  have hP : ("en.cppreference.com/w/cpp/" : String).data
      = "en.cppreference.com".data ++ '/' :: "w/cpp/".data := by decide
  have hslash : ("/" : String).data = ['/'] := by decide
  have hdata : ("en.cppreference.com/w/cpp/" ++ fn ++ "/" ++ n).data
      = "en.cppreference.com".data
          ++ '/' :: ("w/cpp/".data ++ (fn.data ++ '/' :: n.data)) := by
    rw [data_append, data_append, data_append, hP, hslash]
    simp [List.append_assoc]
  refine ⟨((splitOnChar '/' ("w/cpp/".data ++ (fn.data ++ '/' :: n.data))).filter
      (fun l => !l.isEmpty)).map (fun l => (⟨l⟩ : String)), ?_⟩
  rw [UrlPath.parse, hdata,
    splitOnChar_sep_split '/' _ "en.cppreference.com".data (by decide)]
  rw [List.filter_cons_of_pos (by decide)]
  rfl

/-- Follows the claim words: the stem of a file name, the portion before
the final dot when one exists. -/
def fileStem (s : String) : String :=
  let parts := splitOnChar '.' s.data
  if parts.length ≤ 1 then s else ⟨joinWithChar '.' parts.dropLast⟩

/-- Follows the claim words: the external reference-site URL pattern
built from the header stem and the unqualified name. -/
def specCppreferenceUrl (e : Entity) : Option UrlPath :=
  match e.definition_file with
  | none => none
  | some p =>
    match p.getLast? with
    | none => none
    | some fn =>
      match e.get_name with
      | none => none
      | some n => UrlPath.parse ("en.cppreference.com/w/cpp/" ++ fileStem fn ++ "/" ++ n)

/-- A sample std declaration whose header file name carries an
extension: std::x defined in foo.h. -/
def sampleStdFooEntity : Entity :=
  Entity.child EntityKind.FunctionDecl (some "x") (some ["foo.h"])
    (Entity.root EntityKind.Namespace (some "std") none)

/-- Counterexample for C2: for the std declaration x defined in foo.h,
the code builds the URL from the full header file name "foo.h", not from
the header stem "foo" the claim describes. -/
theorem claim_C2_counterexample :
    sampleStdFooEntity.full_name.head? = some "std"
      ∧ sampleStdFooEntity.abs_docs_url ⟨some ⟨["docs.example.com"]⟩⟩
          = some ⟨["en.cppreference.com", "w", "cpp", "foo.h", "x"]⟩
      ∧ specCppreferenceUrl sampleStdFooEntity
          = some ⟨["en.cppreference.com", "w", "cpp", "foo", "x"]⟩
      ∧ sampleStdFooEntity.abs_docs_url ⟨some ⟨["docs.example.com"]⟩⟩
          ≠ specCppreferenceUrl sampleStdFooEntity := by
  decide

/-- C2 (amended): for every declaration whose outermost qualified-name
component is "std", abs_docs_url is independent of the configured site
base, equals the cppreference pattern built from the header file name
(final path component, extension included) and the unqualified name when
those pieces exist, and any URL it produces starts with the external
host, never the internal site; for every other declaration it returns the
relative docs URL resolved against the configured site base. -/
theorem claim_C2_abs_docs_url (e : Entity) (cfg cfg2 : Config) :
    (e.full_name.head? = some "std" →
        e.abs_docs_url cfg = e.abs_docs_url cfg2
          ∧ (∀ p fn n, e.definition_file = some p → p.getLast? = some fn →
              e.get_name = some n →
              e.abs_docs_url cfg
                = UrlPath.parse ("en.cppreference.com/w/cpp/" ++ fn ++ "/" ++ n))
          ∧ (∀ u, e.abs_docs_url cfg = some u →
              u.parts.head? = some "en.cppreference.com"))
      ∧ (¬(e.full_name.head? = some "std") →
          e.abs_docs_url cfg = e.rel_docs_url.map fun u => u.to_absolute cfg) := by
  constructor
  · intro hstd
    refine ⟨by simp [Entity.abs_docs_url, hstd], ?_, ?_⟩
    · intro p fn n hp hl hn
      simp [Entity.abs_docs_url, hstd, hp, hl, hn]
    · intro u hu
      cases hdf : e.definition_file with
      | none => simp [Entity.abs_docs_url, hstd, hdf] at hu
      | some p =>
        cases hl : p.getLast? with
        | none => simp [Entity.abs_docs_url, hstd, hdf, hl] at hu
        | some fn =>
          cases hn : e.get_name with
          | none => simp [Entity.abs_docs_url, hstd, hdf, hl, hn] at hu
          | some n =>
            have habs : e.abs_docs_url cfg
                = UrlPath.parse ("en.cppreference.com/w/cpp/" ++ fn ++ "/" ++ n) := by
              simp [Entity.abs_docs_url, hstd, hdf, hl, hn]
            rw [habs] at hu
            obtain ⟨rest, hr⟩ := cppref_parse_head fn n
            rw [hr] at hu
            rw [← Option.some.inj hu]
            rfl
  · intro hnot
    simp [Entity.abs_docs_url, hnot]

/-- Witness for C2: the std declaration x in foo.h resolves independently
of the site base to the cppreference URL built from the file name, and
the non-std declaration ns::foo resolves against the site base. -/
theorem claim_C2_witness :
    (sampleStdFooEntity.abs_docs_url ⟨some ⟨["docs.example.com"]⟩⟩
        = sampleStdFooEntity.abs_docs_url ⟨none⟩)
      ∧ sampleStdFooEntity.abs_docs_url ⟨some ⟨["docs.example.com"]⟩⟩
          = UrlPath.parse ("en.cppreference.com/w/cpp/" ++ "foo.h" ++ "/" ++ "x")
      ∧ sampleFnEntity.abs_docs_url ⟨some ⟨["docs.example.com"]⟩⟩
          = sampleFnEntity.rel_docs_url.map
              fun u => u.to_absolute ⟨some ⟨["docs.example.com"]⟩⟩ := by
  have h := claim_C2_abs_docs_url sampleStdFooEntity ⟨some ⟨["docs.example.com"]⟩⟩ ⟨none⟩
  have h2 := claim_C2_abs_docs_url sampleFnEntity ⟨some ⟨["docs.example.com"]⟩⟩ ⟨none⟩
  exact ⟨(h.1 rfl).1, (h.1 rfl).2.1 ["foo.h"] "foo.h" "x" rfl rfl rfl,
    h2.2 (by decide)⟩

/-- C10: for every document whose trimmed text begins with "---" but
contains no second "---", front-matter parsing returns no metadata and a
body equal to the remaining text after the opening "---" has been
stripped, so the three delimiter characters are dropped from the rendered
body. -/
theorem claim_C10_unterminated_front_matter (yaml : String → Option Metadata)
    (doc : String)
    (h1 : startsWithL (trimStartStr doc) "---" = true)
    (h2 : findSub (dropStr (trimStartStr doc) 3) "---" = none) :
    parse_markdown_metadata yaml doc = (dropStr (trimStartStr doc) 3, none)
      ∧ (parse_markdown_metadata yaml doc).1.data.length + 3
          = (trimStartStr doc).data.length := by
  have hmain : parse_markdown_metadata yaml doc
      = (dropStr (trimStartStr doc) 3, none) := by
    rw [parse_markdown_metadata, h1]
    simp [h2]
  refine ⟨hmain, ?_⟩
  rw [hmain]
  have hlen : 3 ≤ (trimStartStr doc).data.length := by
    rw [startsWithL] at h1
    have hpre := List.isPrefixOf_iff_prefix.mp h1
    have hle := hpre.length_le
    simpa using hle
  simp only [dropStr, List.length_drop]
  omega

/-- Witness for C10: the document " ---hello" keeps the body "hello" and
yields no metadata. -/
theorem claim_C10_witness :
    startsWithL (trimStartStr " ---hello") "---" = true
      ∧ findSub (dropStr (trimStartStr " ---hello") 3) "---" = none
      ∧ parse_markdown_metadata (fun _ => none) " ---hello" = ("hello", none) :=
  ⟨by decide, by decide,
    (claim_C10_unterminated_front_matter (fun _ => none) " ---hello"
      (by decide) (by decide)).1⟩

theorem wordsAux_append_space (ys : List Char) :
    ∀ (xs acc : List Char),
      wordsAux (xs ++ ' ' :: ys) acc = wordsAux xs acc ++ wordsAux ys [] := by
  intro xs
  induction xs with
  | nil =>
    intro acc
    cases acc with
    | nil => simp [wordsAux]
    | cons a as => simp [wordsAux]
  | cons c cs ih =>
    intro acc
    by_cases hws : c.isWhitespace
    · cases acc with
      | nil => simp [wordsAux, hws, ih]
      | cons a as => simp [wordsAux, hws, ih]
    · simp [wordsAux, hws, ih]

theorem procRunL_append (a b : List Char) :
    procRunL (a ++ b) = procRunL a ++ procRunL b := by
  simp [procRunL]

theorem procRunL_space_cons (t : List Char) :
    procRunL (' ' :: t) = ' ' :: procRunL t := by
  simp [procRunL, keepChar]

theorem words_procRun_join (ls : List (List Char)) :
    wordsL (procRunL (joinWithSpace ls))
      = (ls.map fun l => wordsL (procRunL l)).flatten := by
  induction ls with
  | nil => simp [joinWithSpace, joinWithChar, procRunL, wordsL, wordsAux]
  | cons x rest ih =>
    cases rest with
    | nil => simp [joinWithSpace, joinWithChar]
    | cons y rest2 =>
      have hj : joinWithSpace (x :: y :: rest2)
          = x ++ ' ' :: joinWithSpace (y :: rest2) := rfl
      rw [hj, procRunL_append, procRunL_space_cons, wordsL,
        wordsAux_append_space]
      simp only [List.map_cons, List.flatten_cons]
      rw [← wordsL, ← wordsL, ih]
      simp [List.flatten_cons]



theorem bufAppendRun_words (buf t : String) :
    wordsL (bufAppendRun buf t).data
      = wordsL buf.data ++ wordsL (procRunL t.data) := by
  by_cases h : isEmptyStr buf = true
  · have hnil : buf.data = [] := by
      rw [isEmptyStr, List.isEmpty_iff] at h
      exact h
    rw [bufAppendRun, if_pos h, data_append]
    rw [hnil]
    rfl
  · rw [bufAppendRun, if_neg h, data_append, data_append]
    have hsp : (" " : String).data = [' '] := by decide
    rw [hsp, List.append_assoc, List.singleton_append]
    rw [wordsL, wordsL, wordsAux_append_space]
    rfl

theorem foldl_bufAppend_words (runs : List String) :
    ∀ buf : String,
      wordsL ((runs.foldl bufAppendRun buf).data)
        = wordsL buf.data ++ (runs.map fun t => wordsL (procRunL t.data)).flatten := by
  induction runs with
  | nil => intro buf; simp
  | cons t runs ih =>
    intro buf
    rw [List.foldl_cons, ih (bufAppendRun buf t), bufAppendRun_words]
    simp [List.append_assoc]

theorem headingSlugBuf_eq_foldl :
    ∀ (fuel : Nat) (ev : List Event) (buf : String),
      headingSlugBuf fuel ev buf = (gatherRuns fuel ev).foldl bufAppendRun buf := by
  intro fuel
  induction fuel with
  | zero => intro ev buf; simp [headingSlugBuf, gatherRuns]
  | succ n ih =>
    intro ev buf
    cases ev with
    | nil => simp [headingSlugBuf, gatherRuns]
    | cons e rest =>
      cases e with
      | Text t => simp [headingSlugBuf, gatherRuns, ih]
      | Start tag => simp [headingSlugBuf, gatherRuns, ih]
      | OtherEvent id => simp [headingSlugBuf, gatherRuns, ih]
      | End tag =>
        cases tag <;> simp [headingSlugBuf, gatherRuns, ih]

theorem slug_refinement (size : Nat) (events : List Event) :
    headingSlug size events = specSlugOfRuns (gatherRuns size events) := by
  rw [headingSlug, specSlugOfRuns, headingSlugBuf_eq_foldl, slugFinish]
  have h1 := foldl_bufAppend_words (gatherRuns size events) ""
  have hempty : ("" : String).data = [] := rfl
  rw [hempty] at h1
  have h2 := words_procRun_join ((gatherRuns size events).map String.data)
  rw [List.map_map] at h2
  rw [h1, h2]
  simp [wordsL, wordsAux, Function.comp_def]



/-- The markdown state for a document holding only "## Hello, World!". -/
def helloHeadingState : MDState :=
  ⟨[Event.Start (Tag.Heading 2 none []), Event.Text "Hello, World!",
    Event.End (Tag.Heading 2 none [])], 5, none, ⟨none⟩, none, InsertP.Dont, false⟩

/-- C4: for every heading start event of level below 4 with no explicit
anchor fragment, the transform synthesizes the fragment from the heading
text runs gathered by lookahead up to the heading end event, the runs
being concatenated with single spaces, lowercased with non-alphanumeric
non-space characters removed, and whitespace collapsed to single hyphens;
in particular the heading "## Hello, World!" gets the anchor
"hello-world". -/
theorem claim_C4_heading_anchor (s : MDState) (lvl : Nat) (classes : List String)
    (rest : List Event)
    (hP : s.insertP = InsertP.Dont)
    (hE : s.events = Event.Start (Tag.Heading lvl none classes) :: rest)
    (hlvl : lvl < 4) :
    mdNext s = some (Event.Start (Tag.Heading lvl (some (headingSlug s.size rest))
        (if isQnA s.metadata = true ∧ lvl < 3 then classes ++ ["qna-question"]
         else classes)),
      { s with events := rest })
      ∧ headingSlug s.size rest = specSlugOfRuns (gatherRuns s.size rest)
      ∧ mdNext helloHeadingState
          = some (Event.Start (Tag.Heading 2 (some "hello-world") []),
              { helloHeadingState with
                  events := [Event.Text "Hello, World!",
                    Event.End (Tag.Heading 2 none [])] }) := by
  refine ⟨?_, slug_refinement s.size rest, by rfl⟩
  simp only [mdNext, hE, hP]
  simp [closesAnswer, hlvl]



/-- Witness for C4: the transform on "## Hello, World!" emits the
heading with anchor "hello-world". -/
theorem claim_C4_witness :
    mdNext helloHeadingState
      = some (Event.Start (Tag.Heading 2 (some "hello-world") []),
          { helloHeadingState with
              events := [Event.Text "Hello, World!",
                Event.End (Tag.Heading 2 none [])] }) :=
  (claim_C4_heading_anchor helloHeadingState 2 []
      [Event.Text "Hello, World!", Event.End (Tag.Heading 2 none [])]
      rfl rfl (by decide)).1

/-- A document with emoji shorthand both inside and outside a fenced
code block. -/
def codeEmojiState : MDState :=
  ⟨[Event.Start (Tag.CodeBlock "cpp"), Event.Text ":smile:",
    Event.End (Tag.CodeBlock "cpp"), Event.Text ":smile:"],
   5, none, ⟨none⟩, none, InsertP.Dont, false⟩

/-- C7: for every text event, emoji shorthand is substituted exactly
when the event occurs outside a code block: the gating flag is set by
code-block start events and cleared by code-block end events, and text
inside a fenced code block passes through unchanged. -/
theorem claim_C7_emoji_gating :
    (∀ (s : MDState) (t : String) (rest : List Event),
        s.insertP ≠ InsertP.Start →
        s.events = Event.Text t :: rest →
        mdNext s = some (Event.Text (if s.insideCode then t else fmt_emoji t),
          { s with events := rest }))
      ∧ (∀ (s : MDState) (info : String) (rest : List Event),
          s.insertP ≠ InsertP.Start →
          s.events = Event.Start (Tag.CodeBlock info) :: rest →
          mdNext s = some (Event.Start (Tag.CodeBlock info),
            { s with events := rest, insideCode := true }))
      ∧ (∀ (s : MDState) (info : String) (rest : List Event),
          s.insertP ≠ InsertP.Start →
          s.events = Event.End (Tag.CodeBlock info) :: rest →
          mdNext s = some (Event.End (Tag.CodeBlock info),
            { s with events := rest, insideCode := false }))
      ∧ mdRun 5 codeEmojiState = [Event.Start (Tag.CodeBlock "cpp"),
          Event.Text ":smile:", Event.End (Tag.CodeBlock "cpp"), Event.Text "😄"] := by
  refine ⟨?_, ?_, ?_, by rfl⟩
  · intro s t rest hP hE
    simp only [mdNext, hE, hP]
    by_cases hc : s.insideCode <;> simp [closesAnswer, hP, hc]
  · intro s info rest hP hE
    simp only [mdNext, hE, hP]
    simp [closesAnswer, hP]
  · intro s info rest hP hE
    simp only [mdNext, hE, hP]
    simp [closesAnswer, hP]



/-- Witness for C7: the shorthand ":smile:" is untouched inside a code
block and substituted outside. -/
theorem claim_C7_witness :
    mdNext ⟨[Event.Text ":smile:"], 5, none, ⟨none⟩, none, InsertP.Dont, true⟩
        = some (Event.Text ":smile:",
            ⟨[], 5, none, ⟨none⟩, none, InsertP.Dont, true⟩)
      ∧ mdNext ⟨[Event.Text ":smile:"], 5, none, ⟨none⟩, none, InsertP.Dont, false⟩
          = some (Event.Text "😄",
              ⟨[], 5, none, ⟨none⟩, none, InsertP.Dont, false⟩) :=
  ⟨claim_C7_emoji_gating.1 _ ":smile:" [] (by decide) rfl,
    claim_C7_emoji_gating.1 _ ":smile:" [] (by decide) rfl⟩

/-- A transform state carrying the tutorial link rewrite and a site
base. -/
def tutorialLinkState : MDState :=
  ⟨[], 5, some tutorialUrlFixer, ⟨some ⟨["docs.example.com"]⟩⟩, none,
    InsertP.Dont, false⟩

/-- C6: for every link or image start event whose destination begins
with "/", the destination may first pass through the caller-supplied
rewrite function, and it is then resolved to an absolute URL against the
site base regardless of whether a rewrite applied; in particular
"/tutorials/intro.md" through the tutorial rewrite stripping ".md"
resolves to an absolute URL ending "/tutorials/intro". -/
theorem claim_C6_link_rewrite :
    (∀ (s : MDState) (ty : LinkType) (dest title : String) (rest : List Event),
        s.insertP ≠ InsertP.Start →
        s.events = Event.Start (Tag.Link ty dest title) :: rest →
        mdNext s = some (Event.Start (Tag.Link ty
            (fixDest { s with events := rest } ty dest) title),
          { s with events := rest }))
      ∧ (∀ (s : MDState) (ty : LinkType) (dest title : String) (rest : List Event),
          s.insertP ≠ InsertP.Start →
          s.events = Event.Start (Tag.Image ty dest title) :: rest →
          mdNext s = some (Event.Start (Tag.Image ty
              (fixDest { s with events := rest } ty dest) title),
            { s with events := rest }))
      ∧ (∀ (s : MDState) (ty : LinkType) (dest : String),
          startsWithL dest "/" = true →
          fixDest s ty dest = (match UrlPath.parse (rewriteDest s ty dest) with
            | some d => (d.to_absolute s.config).to_unencoded_string
            | none => rewriteDest s ty dest))
      ∧ fixDest tutorialLinkState LinkType.Inline "/tutorials/intro.md"
          = "docs.example.com/tutorials/intro"
      ∧ endsWithL "docs.example.com/tutorials/intro" "/tutorials/intro" = true := by
  refine ⟨?_, ?_, ?_, by decide, by decide⟩
  · intro s ty dest title rest hP hE
    simp only [mdNext, hE, hP]
    simp [closesAnswer, hP]
  · intro s ty dest title rest hP hE
    simp only [mdNext, hE, hP]
    simp [closesAnswer, hP]
  · intro s ty dest h
    simp only [fixDest, h, if_pos]
    try rfl

/-- Witness for C6: a link to "/tutorials/intro.md" is rewritten and
resolved to "docs.example.com/tutorials/intro". -/
theorem claim_C6_witness :
    mdNext ⟨[Event.Start (Tag.Link LinkType.Inline "/tutorials/intro.md" "")],
        5, some tutorialUrlFixer, ⟨some ⟨["docs.example.com"]⟩⟩, none,
        InsertP.Dont, false⟩
      = some (Event.Start
          (Tag.Link LinkType.Inline "docs.example.com/tutorials/intro" ""),
        ⟨[], 5, some tutorialUrlFixer, ⟨some ⟨["docs.example.com"]⟩⟩, none,
          InsertP.Dont, false⟩) :=
  claim_C6_link_rewrite.1 _ LinkType.Inline "/tutorials/intro.md" "" []
    (by decide) rfl

/-- A question-and-answer document: two level-2 question headings with
answer content after each. -/
def qnaEvents : List Event :=
  [Event.Start (Tag.Heading 2 none []), Event.Text "Q",
   Event.End (Tag.Heading 2 none []),
   Event.Start Tag.Paragraph, Event.Text "A", Event.End Tag.Paragraph,
   Event.Start (Tag.Heading 2 none []), Event.Text "B",
   Event.End (Tag.Heading 2 none []),
   Event.Text "C"]

/-- The question-and-answer document under qna front-matter style. -/
def qnaDocState : MDState :=
  ⟨qnaEvents, 5, none, ⟨none⟩, some { style := Style.QnA }, InsertP.Dont, false⟩

/-- The same document under default front-matter style. -/
def defaultDocState : MDState :=
  ⟨qnaEvents, 5, none, ⟨none⟩, some { style := Style.Default }, InsertP.Dont, false⟩

/-- C5: under question-and-answer front-matter style, the transform
emits a synthetic quote-block wrapper immediately after each level-2
heading end event, enclosing all following events until the next level-2
heading start or the end of the stream; under default style no synthetic
quote block is ever emitted: every step keeps the insertion stage idle,
consumes exactly one input event, and emits a quote-block delimiter only
when it was the input event itself. -/
theorem claim_C5_qna_quote_blocks :
    (∀ s : MDState, s.insertP = InsertP.Start →
        mdNext s = some (Event.Start Tag.BlockQuote,
          { s with insertP := InsertP.ToEnd }))
      ∧ (∀ s : MDState, s.insertP = InsertP.ToEnd →
          closesAnswer s.events.head? = true →
          mdNext s = some (Event.End Tag.BlockQuote,
            { s with insertP := InsertP.Dont }))
      ∧ (∀ ev : Option Event, closesAnswer ev = true ↔
          (ev = none ∨ ∃ frag classes,
            ev = some (Event.Start (Tag.Heading 2 frag classes))))
      ∧ (∀ (s : MDState) (frag : Option String) (classes : List String)
            (rest : List Event),
          s.insertP = InsertP.Dont → isQnA s.metadata = true →
          s.events = Event.End (Tag.Heading 2 frag classes) :: rest →
          mdNext s = some (Event.End (Tag.Heading 2 frag classes),
            { s with events := rest, insertP := InsertP.Start }))
      ∧ (∀ s : MDState, isQnA s.metadata = false → s.insertP = InsertP.Dont →
          (s.events = [] → mdNext s = none)
            ∧ ∀ p ∈ mdNext s,
                p.2.insertP = InsertP.Dont ∧ p.2.events = s.events.tail
                  ∧ ((p.1 = Event.Start Tag.BlockQuote
                        ∨ p.1 = Event.End Tag.BlockQuote) →
                      s.events.head? = some p.1))
      ∧ mdRun 20 qnaDocState
          = [Event.Start (Tag.Heading 2 (some "q") ["qna-question"]),
             Event.Text "Q", Event.End (Tag.Heading 2 none []),
             Event.Start Tag.BlockQuote,
             Event.Start Tag.Paragraph, Event.Text "A", Event.End Tag.Paragraph,
             Event.End Tag.BlockQuote,
             Event.Start (Tag.Heading 2 (some "b") ["qna-question"]),
             Event.Text "B", Event.End (Tag.Heading 2 none []),
             Event.Start Tag.BlockQuote, Event.Text "C", Event.End Tag.BlockQuote]
      ∧ mdRun 20 defaultDocState
          = [Event.Start (Tag.Heading 2 (some "q") []),
             Event.Text "Q", Event.End (Tag.Heading 2 none []),
             Event.Start Tag.Paragraph, Event.Text "A", Event.End Tag.Paragraph,
             Event.Start (Tag.Heading 2 (some "b") []),
             Event.Text "B", Event.End (Tag.Heading 2 none []),
             Event.Text "C"] := by
  refine ⟨?_, ?_, ?_, ?_, ?_, by rfl, by rfl⟩
  · intro s hP
    simp [mdNext, hP]
  · intro s hP hc
    simp [mdNext, hP, hc]
  · intro ev
    cases ev with
    | none => simp [closesAnswer]
    | some e =>
      cases e with
      | Start tag =>
        cases tag with
        | Heading lvl frag classes =>
          simp only [closesAnswer]
          constructor
          · intro h
            right
            exact ⟨frag, classes, by simp [of_decide_eq_true h]⟩
          · rintro (h | ⟨f, c, h⟩)
            · cases h
            · cases h
              simp
        | CodeBlock info => simp [closesAnswer]
        | Link ty dest title => simp [closesAnswer]
        | Image ty dest title => simp [closesAnswer]
        | BlockQuote => simp [closesAnswer]
        | Paragraph => simp [closesAnswer]
        | OtherTag id => simp [closesAnswer]
      | End tag => simp [closesAnswer]
      | Text t => simp [closesAnswer]
      | OtherEvent id => simp [closesAnswer]
  · intro s frag classes rest hP hq hE
    simp only [mdNext, hE, hP]
    simp [closesAnswer, hq]
  · intro s hq hP
    constructor
    · intro hnil
      simp [mdNext, hP, hnil, closesAnswer]
    · intro p hp
      rw [Option.mem_def, mdNext] at hp
      rcases hsev : s.events with _ | ⟨ev, rest⟩ <;> rw [hsev] at hp
      · simp [hP, closesAnswer] at hp
      · cases ev with
        | Text t =>
          by_cases hc : s.insideCode <;>
            · simp only [hP, hc, closesAnswer] at hp
              simp at hp
              subst hp
              simp [hsev, hP]
        | OtherEvent id =>
          simp [hP, closesAnswer] at hp
          subst hp
          simp [hsev, hP]
        | Start tag =>
          cases tag <;>
            · simp [hP, closesAnswer] at hp
              subst hp
              simp [hsev, hP]
        | End tag =>
          cases tag <;>
            · simp [hP, closesAnswer, hq] at hp
              subst hp
              simp [hsev, hP]



/-- Witness for C5: a pending stage emits the quote-block start, a
level-2 heading end under qna style schedules it, and the default-style
document stream behaves plainly. -/
theorem claim_C5_witness :
    mdNext ⟨[], 5, none, ⟨none⟩, some { style := Style.QnA }, InsertP.Start, false⟩
        = some (Event.Start Tag.BlockQuote,
            ⟨[], 5, none, ⟨none⟩, some { style := Style.QnA }, InsertP.ToEnd, false⟩)
      ∧ mdNext ⟨[Event.End (Tag.Heading 2 none [])], 5, none, ⟨none⟩,
            some { style := Style.QnA }, InsertP.Dont, false⟩
          = some (Event.End (Tag.Heading 2 none []),
              ⟨[], 5, none, ⟨none⟩, some { style := Style.QnA }, InsertP.Start, false⟩)
      ∧ (defaultDocState.events = [] → mdNext defaultDocState = none) :=
  ⟨claim_C5_qna_quote_blocks.1 _ rfl,
    claim_C5_qna_quote_blocks.2.2.2.1 _ none [] [] rfl rfl rfl,
    (claim_C5_qna_quote_blocks.2.2.2.2.1 defaultDocState rfl rfl).1⟩

/-- Is the first event of the stream a heading start? -/
def headIsHeadingStart : List Event → Bool
  | Event.Start (Tag.Heading _ _ _) :: _ => true
  | _ => false

/-- Counterexample for C8: a document whose first markdown event is a
paragraph, with a heading later and a caller default supplied, yields no
metadata, although the claim promises the first-heading title or the
default. -/
theorem claim_C8_counterexample :
    extract_metadata_from_md (fun _ => none)
        (fun _ => [Event.Start Tag.Paragraph, Event.Text "x", Event.End Tag.Paragraph,
          Event.Start (Tag.Heading 1 none []), Event.Text "T",
          Event.End (Tag.Heading 1 none [])])
        "x\n\n# T" (some "D") = none
      ∧ (none : Option Metadata) ≠ some (Metadata.new_with_title "T")
      ∧ (none : Option Metadata) ≠ some (Metadata.new_with_title "D") := by
  decide

/-- C8 (amended): title extraction returns front-matter metadata
unchanged when its title is present; otherwise, when the very first
markdown event is a heading start, the concatenation of the text runs up
to the heading end becomes the title, the caller default filling in when
the collected text is empty (updating titleless front-matter metadata
accordingly, and without front-matter yielding default-title metadata or
none); when the first event is not a heading start, none is returned even
if a heading occurs later, a default title was supplied, or titleless
front-matter metadata exists. -/
theorem claim_C8_title_extraction :
    (∀ (m : Metadata) (events : List Event) (dflt : Option String),
        m.title ≠ none →
        extract_metadata_core (some m) events dflt = some m)
      ∧ (∀ (meta : Option Metadata) (events : List Event) (dflt : Option String),
          meta.bind Metadata.title = none →
          headIsHeadingStart events = false →
          extract_metadata_core meta events dflt = none)
      ∧ (∀ (m : Metadata) (lvl : Nat) (fr : Option String) (cl : List String)
            (rest : List Event) (dflt : Option String),
          m.title = none →
          extract_metadata_core (some m)
              (Event.Start (Tag.Heading lvl fr cl) :: rest) dflt
            = some { m with title :=
                (if !isEmptyStr (collectTitle rest) then some (collectTitle rest)
                 else none).or dflt })
      ∧ (∀ (lvl : Nat) (fr : Option String) (cl : List String)
            (rest : List Event) (dflt : Option String),
          extract_metadata_core none
              (Event.Start (Tag.Heading lvl fr cl) :: rest) dflt
            = if isEmptyStr (collectTitle rest) then dflt.map Metadata.new_with_title
              else some (Metadata.new_with_title (collectTitle rest)))
      ∧ (∀ (yaml : String → Option Metadata) (mdParse : String → List Event)
            (text : String) (dflt : Option String),
          extract_metadata_from_md yaml mdParse text dflt
            = extract_metadata_core (parse_markdown_metadata yaml text).2
                (mdParse (parse_markdown_metadata yaml text).1) dflt)
      ∧ extract_metadata_from_md (fun _ => none)
          (fun _ => [Event.Start (Tag.Heading 1 none []), Event.Text "My Guide",
            Event.End (Tag.Heading 1 none [])])
          "# My Guide" none = some (Metadata.new_with_title "My Guide")
      ∧ extract_metadata_from_md (fun _ => none)
          (fun _ => [Event.Start (Tag.Heading 1 none []),
            Event.End (Tag.Heading 1 none [])])
          "# " (some "D") = some (Metadata.new_with_title "D")
      ∧ extract_metadata_from_md (fun _ => none)
          (fun _ => [Event.Start Tag.Paragraph, Event.Text "x",
            Event.End Tag.Paragraph])
          "x" none = none := by
  refine ⟨?_, ?_, ?_, ?_, ?_, by decide, by decide, by decide⟩
  · intro m events dflt ht
    have hs : (Metadata.title m).isSome = true := Option.isSome_iff_ne_none.mpr ht
    simp [extract_metadata_core, hs]
  · intro meta events dflt ht hh
    rw [extract_metadata_core.eq_def]
    rw [if_neg (by simp [ht])]
    cases events with
    | nil => rfl
    | cons first rest =>
      cases first with
      | Start tag =>
        cases tag with
        | Heading lvl fr cl => simp [headIsHeadingStart] at hh
        | CodeBlock info => rfl
        | Link a b c => rfl
        | Image a b c => rfl
        | BlockQuote => rfl
        | Paragraph => rfl
        | OtherTag i => rfl
      | End tag => rfl
      | Text t => rfl
      | OtherEvent i => rfl
  · intro m lvl fr cl rest dflt ht
    rw [extract_metadata_core.eq_def]
    rw [if_neg (by simp [ht])]
  · intro lvl fr cl rest dflt
    rw [extract_metadata_core.eq_def]
    rw [if_neg (by simp)]
  · intro yaml mdParse text dflt
    rfl

/-- Witness for C8: front-matter title kept, paragraph-first document
dropped, and "# My Guide" extracted as the title. -/
theorem claim_C8_witness :
    extract_metadata_core (some { title := some "t" }) [] none
        = some { title := some "t" }
      ∧ extract_metadata_core none [Event.Start Tag.Paragraph] (some "D") = none
      ∧ extract_metadata_core none
          [Event.Start (Tag.Heading 1 none []), Event.Text "My Guide",
            Event.End (Tag.Heading 1 none [])] none
          = some (Metadata.new_with_title "My Guide") :=
  ⟨claim_C8_title_extraction.1 { title := some "t" } [] none (by decide),
    claim_C8_title_extraction.2.1 none [Event.Start Tag.Paragraph] (some "D")
      rfl (by decide),
    claim_C8_title_extraction.2.2.2.1 1 none []
      [Event.Text "My Guide", Event.End (Tag.Heading 1 none [])] none⟩
